import Mathlib

/-!
Verification of the metadata aggregation and binary resolution engine of
the system-deps repository (crates system-deps and system-deps-meta).

The Rust sources are embedded shallowly:
- toml::Value becomes the inductive TValue; toml::Table (a map from
  strings to values) becomes an association list TTable, with lookup
  returning the first matching entry and insertion replacing the first
  matching entry in place (appending fresh keys at the end).  Rust table
  keys are unique, so theorems about maps may assume key-uniqueness of
  tables where stated.
- Fallible Rust functions returning Result<_, Error> become Except.
- Filesystem and network effects are passed in explicitly as oracle
  records describing the answers the environment would give.
-/

set_option autoImplicit false

namespace SystemDeps

/-- Embeds toml::Value. Scalars are strings, integers and booleans
(floats and datetimes behave exactly like the other scalars in every
function modelled here and are omitted). -/
inductive TValue where
  | str (s : String)
  | int (n : Int)
  | bool (b : Bool)
  | arr (elems : List TValue)
  | table (entries : List (String × TValue))
deriving Repr

/-- Embeds toml::Table as an association list. -/
abbrev TTable := List (String × TValue)

mutual

/-- Structural decidable equality on toml values (PartialEq in the source). -/
def TValue.decEq (a b : TValue) : Decidable (a = b) :=
  match a, b with
  | .str x, .str y =>
    if h : x = y then .isTrue (by rw [h]) else .isFalse (by simp [h])
  | .int x, .int y =>
    if h : x = y then .isTrue (by rw [h]) else .isFalse (by simp [h])
  | .bool x, .bool y =>
    if h : x = y then .isTrue (by rw [h]) else .isFalse (by simp [h])
  | .arr xs, .arr ys =>
    match TValue.decEqList xs ys with
    | .isTrue h => .isTrue (by rw [h])
    | .isFalse h => .isFalse (by simp [h])
  | .table xs, .table ys =>
    match TValue.decEqTable xs ys with
    | .isTrue h => .isTrue (by rw [h])
    | .isFalse h => .isFalse (by simp [h])
  | .str _, .int _ => .isFalse nofun
  | .str _, .bool _ => .isFalse nofun
  | .str _, .arr _ => .isFalse nofun
  | .str _, .table _ => .isFalse nofun
  | .int _, .str _ => .isFalse nofun
  | .int _, .bool _ => .isFalse nofun
  | .int _, .arr _ => .isFalse nofun
  | .int _, .table _ => .isFalse nofun
  | .bool _, .str _ => .isFalse nofun
  | .bool _, .int _ => .isFalse nofun
  | .bool _, .arr _ => .isFalse nofun
  | .bool _, .table _ => .isFalse nofun
  | .arr _, .str _ => .isFalse nofun
  | .arr _, .int _ => .isFalse nofun
  | .arr _, .bool _ => .isFalse nofun
  | .arr _, .table _ => .isFalse nofun
  | .table _, .str _ => .isFalse nofun
  | .table _, .int _ => .isFalse nofun
  | .table _, .bool _ => .isFalse nofun
  | .table _, .arr _ => .isFalse nofun
  termination_by sizeOf a

/-- Decidable equality on lists of toml values. -/
def TValue.decEqList (xs ys : List TValue) : Decidable (xs = ys) :=
  match xs, ys with
  | [], [] => .isTrue rfl
  | [], _ :: _ => .isFalse nofun
  | _ :: _, [] => .isFalse nofun
  | x :: xr, y :: yr =>
    match TValue.decEq x y, TValue.decEqList xr yr with
    | .isTrue h1, .isTrue h2 => .isTrue (by rw [h1, h2])
    | .isFalse h1, _ => .isFalse (by simp [h1])
    | _, .isFalse h2 => .isFalse (by simp [h2])
  termination_by sizeOf xs

/-- Decidable equality on lists of table entries. -/
def TValue.decEqTable (xs ys : List (String × TValue)) : Decidable (xs = ys) :=
  match xs, ys with
  | [], [] => .isTrue rfl
  | [], _ :: _ => .isFalse nofun
  | _ :: _, [] => .isFalse nofun
  | (k1, v1) :: xr, (k2, v2) :: yr =>
    if hk : k1 = k2 then
      match TValue.decEq v1 v2, TValue.decEqTable xr yr with
      | .isTrue h1, .isTrue h2 => .isTrue (by rw [hk, h1, h2])
      | .isFalse h1, _ => .isFalse (by simp [h1])
      | _, .isFalse h2 => .isFalse (by simp [h2])
    else .isFalse (by simp [hk])
  termination_by sizeOf xs

end

instance : DecidableEq TValue := TValue.decEq

/-- Association-list lookup: Table::get. -/
def tget (t : TTable) (k : String) : Option TValue :=
  match t with
  | [] => none
  | (k2, v) :: rest => if k2 = k then some v else tget rest k

/-- Association-list insertion: Table::insert. An existing key keeps its
position and gets the new value; a fresh key is appended. -/
def tset (t : TTable) (k : String) (v : TValue) : TTable :=
  match t with
  | [] => [(k, v)]
  | (k2, v2) :: rest => if k2 = k then (k2, v) :: rest else (k2, v2) :: tset rest k v

/-- Embeds std::mem::discriminant comparison on two toml values. -/
def sameKind (a b : TValue) : Bool :=
  match a, b with
  | .str _, .str _ => true
  | .int _, .int _ => true
  | .bool _, .bool _ => true
  | .arr _, .arr _ => true
  | .table _, .table _ => true
  | _, _ => false

/-- The variants of error::Error exercised by the embedded functions.
unwrapFailure models a Rust panic from .unwrap() on a value that is not
a table (dead code in the source, kept to make the embedding total). -/
inductive MError where
  | cfgNotObject (s : String)
  | incompatibleMerge
  | invalidCfg (s : String)
  | packageNotFound (s : String)
  | unsupportedCfg (s : String)
  | unwrapFailure
deriving DecidableEq, Repr

/-- The inner loop of rule 4 of the merge engine: each element of lhs is
appended to rhs unless already present. -/
def mergeArrayPush (rhs : List TValue) (lhs : List TValue) : List TValue :=
  match lhs with
  | [] => rhs
  | v :: rest => mergeArrayPush (if v ∈ rhs then rhs else rhs ++ [v]) rest

/-- Embeds merge_default (meta/src/utils.rs) and the textually identical
merge (meta/src/parse.rs): fold every key of lhs into rhs under the
overwrite policy. -/
def merge (ow : Bool) (rhs : TTable) (lhs : TTable) : Except MError TTable :=
  match lhs with
  | [] => .ok rhs
  | (key, lv) :: rest =>
    match tget rhs key with
    -- 1. A key absent from rhs is inserted as-is.
    | none => merge ow (tset rhs key lv) rest
    | some rv =>
      -- 2. Equal values stop early.
      if rv = lv then merge ow rhs rest
      -- 3. Two different kinds are incompatible.
      else if sameKind rv lv = false then .error .incompatibleMerge
      else
        match rv, lv with
        -- 4. Arrays are combined, deduplicating new elements.
        | .arr ra, .arr la => merge ow (tset rhs key (.arr (mergeArrayPush ra la))) rest
        -- 5. Tables recurse with the same flag.
        | .table rt, .table lt =>
          match merge ow rt lt with
          | .error e => .error e
          | .ok m => merge ow (tset rhs key (.table m)) rest
        -- 6. Differing scalars: replaced when overwriting, an error otherwise.
        | _, _ => if ow then merge ow (tset rhs key lv) rest else .error .incompatibleMerge
  termination_by sizeOf lhs
  decreasing_by all_goals simp_wf <;> omega

/-! ### Conditional reducer (meta/src/utils.rs, reduce) -/

/-- The behavior of check_cfg for one fixed build target: maps a predicate
string to its truth value, or to an error for malformed or unsupported
expressions.  check_cfg itself delegates to the external cfg-expr crate,
which is out of scope; reduce is stated for an arbitrary oracle. -/
def CfgOracle := String → Except MError Bool

/-- Character-level test used to embed str::starts_with and
str::ends_with. -/
def isPre : List Char → List Char → Bool
  | [], _ => true
  | _ :: _, [] => false
  | c :: cs, d :: ds => decide (c = d) && isPre cs ds

/-- Embeds str::starts_with(p). -/
def strStarts (s p : String) : Bool := isPre p.data s.data

/-- Embeds dropping the first n characters of a string (the remainder
after a stripped prefix of n characters). -/
def strDrop (s : String) (n : Nat) : String := String.mk (s.data.drop n)

/-- Embeds str::ends_with(p). -/
def strEnds (s p : String) : Bool := isPre p.data.reverse s.data.reverse

/-- Embeds dropping the last n characters of a string (the remainder
after a stripped suffix of n characters). -/
def strDropRight (s : String) (n : Nat) : String :=
  String.mk (s.data.take (s.data.length - n))

/-- Embeds key.strip_prefix("cfg("). -/
def cfgInner (key : String) : Option String :=
  if strStarts key "cfg(" then some (strDrop key 4) else none

/-- Embeds cfg.strip_suffix(")"). -/
def closeParen (s : String) : Option String :=
  if strEnds s ")" then some (strDropRight s 1) else none

/-- Embeds the let-else destructuring Value::Table(x) = v used by the
reducer: the entries of a table value, none otherwise. -/
def asTable (v : TValue) : Option (List (String × TValue)) :=
  match v with
  | .table t => some t
  | _ => none

/-- The inner loop of reduce for one true predicate: each {targetKey:
configTable} entry of the guarded table is folded into the conditionals
accumulator with conditionals.entry(targetKey).or_insert(empty table)
merged with overwrite=false.  unwrapFailure models the as_table_mut
unwrap on a non-table accumulator entry (dead code: the accumulator only
ever holds tables). -/
def foldCond (key : String) (inner : List (String × TValue)) (cond : TTable) :
    Except MError TTable :=
  match inner with
  | [] => .ok cond
  | (ik, v) :: rest =>
    match asTable v with
    | none => .error (.cfgNotObject key)
    | some vt =>
      match tget cond ik with
      | some cv =>
        match asTable cv with
        | none => .error .unwrapFailure
        | some prev =>
          match merge false prev vt with
          | .error e => .error e
          | .ok m => foldCond key rest (tset cond ik (.table m))
      | none =>
        match merge false [] vt with
        | .error e => .error e
        | .ok m => foldCond key rest (tset cond ik (.table m))

mutual

/-- The iteration of reduce over the remaining entries, carrying the res
and conditionals accumulators; when the entries are exhausted the
conditionals are merged into res with overwrite=true. -/
def reduceGo (ev : CfgOracle) (entries : List (String × TValue)) (res cond : TTable) :
    Except MError TTable :=
  match entries with
  | [] => merge true res cond
  | (key, value) :: rest =>
    match cfgInner key with
    | some inner0 =>
      match closeParen inner0 with
      | none => .error (.unsupportedCfg key)
      | some pred =>
        match ev pred with
        | .error e => .error e
        | .ok false => reduceGo ev rest res cond
        | .ok true =>
          match asTable value with
          | none => .error (.cfgNotObject key)
          | some inner =>
            match foldCond key inner cond with
            | .error e => .error e
            | .ok cond2 => reduceGo ev rest res cond2
    | none =>
      match ht : asTable value with
      | some t =>
        match reduce ev t with
        | .error e => .error e
        | .ok r => reduceGo ev rest (tset res key (.table r)) cond
      | none => reduceGo ev rest (tset res key value) cond
  termination_by sizeOf entries
  decreasing_by
    all_goals simp_wf
    all_goals (cases v <;> simp_all [asTable] <;> omega)

/-- Embeds reduce (meta/src/utils.rs): evaluate cfg() keys against the
target, fold the true branches, and recurse into non-predicate tables. -/
def reduce (ev : CfgOracle) (t : TTable) : Except MError TTable :=
  reduceGo ev t [] []
  termination_by sizeOf t + 1

end

/-! ### Graph aggregation (meta/src/parse.rs, read_metadata lines 163-203) -/

/-- Generic association-list lookup: HashMap::get. -/
def alookup {α : Type} (t : List (String × α)) (k : String) : Option α :=
  match t with
  | [] => none
  | (k2, v) :: rest => if k2 = k then some v else alookup rest k

/-- Generic association-list removal: HashMap::remove (keys are unique). -/
def aremove {α : Type} (t : List (String × α)) (k : String) : List (String × α) :=
  match t with
  | [] => []
  | (k2, v) :: rest => if k2 = k then rest else (k2, v) :: aremove rest k

/-- Embeds MetadataNode: the reduced document of one package, the set of
its dependents (a BTreeSet, modelled as a sorted duplicate-free list) and
the number of distinct dependent edges recorded. -/
structure MetadataNode where
  table : TTable
  parents : List String
  children : Nat
deriving DecidableEq, Repr

/-- The merge callback passed to read_metadata (rhs, lhs, overwrite). -/
def MergeFn := Bool → TTable → TTable → Except MError TTable

/-- The inner loop of the aggregation: for p in node.parents.iter().rev(),
look the parent up (PackageNotFound if absent), keep it in the node map
when its child count is still positive (children.checked_sub(1).is_some())
and remove it otherwise, and push it to the front of the queue.  Called
with the reversed parent list so that the front of the resulting queue
holds the parents in ascending order, as in the source. -/
def pushParents (ps : List String) (nodes : List (String × MetadataNode))
    (queue : List MetadataNode) :
    Except MError (List (String × MetadataNode) × List MetadataNode) :=
  match ps with
  | [] => .ok (nodes, queue)
  | p :: rest =>
    match alookup nodes p with
    | none => .error (.packageNotFound p)
    | some parent =>
      if 1 ≤ parent.children then pushParents rest nodes (parent :: queue)
      else pushParents rest (aremove nodes p) (parent :: queue)

/-- The reducing loop of read_metadata: pop a node, queue its parents,
merge its table into the path-local accumulator with overwrite=true, and
when the node is a root merge the accumulator into the global result with
overwrite=false.  fuel bounds the number of iterations (the Rust loop
terminates because the graph is acyclic); none means fuel ran out. -/
def aggLoop (mf : MergeFn) (fuel : Nat) (nodes : List (String × MetadataNode))
    (queue : List MetadataNode) (curr res : TTable) : Option (Except MError TTable) :=
  match fuel with
  | 0 => none
  | fuel + 1 =>
    match queue with
    | [] => some (.ok res)
    | node :: queue =>
      match pushParents node.parents.reverse nodes queue with
      | .error e => some (.error e)
      | .ok (nodes2, queue2) =>
        match mf true curr node.table with
        | .error e => some (.error e)
        | .ok curr2 =>
          if node.parents = [] then
            match mf false res curr2 with
            | .error e => some (.error e)
            | .ok res2 => aggLoop mf fuel nodes2 queue2 [] res2
          else aggLoop mf fuel nodes2 queue2 curr2 res

/-- Embeds the aggregation phase of read_metadata: nodes with no children
seed the queue (in map iteration order) and the remaining nodes stay in
the map, then the reducing loop runs. -/
def aggregate (mf : MergeFn) (nodes : List (String × MetadataNode)) (fuel : Nat) :
    Option (Except MError TTable) :=
  let leaves := (nodes.filter (fun kv => kv.2.children = 0)).map (fun kv => kv.2)
  let rest := nodes.filter (fun kv => ¬ kv.2.children = 0)
  aggLoop mf fuel rest leaves [] []

/-! ### Binary resolver (meta/src/binary.rs) -/

/-- The variants of BinaryError, I/O payloads dropped. -/
inductive BinaryError where
  | decompressError
  | directoryIsFile (path : String)
  | downloadError
  | invalidChecksum (url declared computed : String)
  | invalidDirectory
  | invalidFollows (name follows : String)
  | localFileError
  | symlinkError
  | unsupportedExtension (s : String)
deriving DecidableEq, Repr

/-- Embeds the Paths index: explicit search paths, exact aliases and
wildcard aliases.  Paths are modelled as strings. -/
structure Paths where
  paths : List (String × List String)
  follows : List (String × String)
  wildcards : List (String × String)
deriving DecidableEq, Repr

/-- Embeds Paths::get: explicit entry first, else the exact alias target
(returned even when the target has no entry), else the first wildcard
whose prefix matches and whose target has an entry. -/
def Paths.get (P : Paths) (key : String) : Option (List String) :=
  match alookup P.paths key with
  | some paths => some paths
  | none =>
    match alookup P.follows key with
    | some f => alookup P.paths f
    | none =>
      P.wildcards.findSome? fun kv =>
        if strStarts key kv.1 then alookup P.paths kv.2 else none

/-- Models Path::join for the relative components used by the resolver. -/
def joinPath (a b : String) : String := a ++ "/" ++ b

/-- Embeds the initial explicit list for one Direct entry in
Paths::from_iter: bin.paths.iter().flatten().map(|p| dst.join(p)) with
dst = BUILD_TARGET_DIR/name.  A missing paths field yields the empty
list. -/
def pathsFor (root name : String) (binPaths : Option (List String)) : List String :=
  (binPaths.getD []).map fun p => joinPath (joinPath root name) p

/-- Embeds Value::as_str inside the info.toml filter_map. -/
def asStr (v : TValue) : Option String :=
  match v with
  | .str s => some s
  | _ => none

/-- The push loop of the info.toml step: each declared subpath is joined
with the destination and appended unless already present. -/
def infoFold (dst : String) (ps : List String) (list : List String) : List String :=
  match ps with
  | [] => list
  | p :: rest =>
    let p2 := joinPath dst p
    infoFold dst rest (if p2 ∈ list then list else list ++ [p2])

/-- Embeds the supplemental-configuration step of Paths::from_iter: a
missing or malformed info.toml (modelled as none) is silently skipped; a
parsed document contributes the strings of its top-level paths array. -/
def addInfoPaths (dst : String) (info : Option TTable) (list : List String) : List String :=
  match info with
  | none => list
  | some table =>
    match tget table "paths" with
    | some (.arr ps) => infoFold dst (ps.filterMap asStr) list
    | _ => list

/-- The explicit search-path list Paths::from_iter builds for one Direct
entry named name: the configured subpaths joined onto the destination
directory, then the supplemental info.toml subpaths. -/
def buildPathList (root name : String) (binPaths : Option (List String))
    (info : Option TTable) : List String :=
  addInfoPaths (joinPath root name) info (pathsFor root name binPaths)

/-! ### Fetcher/cache (meta/src/binary.rs, check_valid_dir and
make_available) -/

/-- The answers the filesystem gives check_valid_dir about a destination
directory: dst.try_exists(), dst.is_file(), dst.join("checksum").is_file()
and fs::read_to_string of the marker.  none models an io::Error outcome. -/
structure DirState where
  tryExists : Option Bool
  isFile : Bool
  markerIsFile : Bool
  markerRead : Option String
deriving DecidableEq, Repr

/-- Embeds check_valid_dir: Ok true exactly when the cached copy can be
trusted, Ok false when a refresh is needed, an error otherwise. -/
def check_valid_dir (path : String) (dst : DirState) (checksum : Option String) :
    Except BinaryError Bool :=
  match dst.tryExists with
  | none => .error .invalidDirectory
  | some false => .ok false
  | some true =>
    if dst.isFile then .error (.directoryIsFile path)
    else
      match checksum with
      | some ch =>
        if dst.markerIsFile then
          match dst.markerRead with
          | none => .error .invalidDirectory
          | some content => .ok (decide (ch = content))
        else .ok false
      | none => .ok false

/-- Embeds the Extension enum (all archive features enabled). -/
inductive Extension where
  | tarGz
  | tarXz
  | zip
  | folder
deriving DecidableEq, Repr

/-- Embeds TryFrom<&Path> for Extension: an existing directory is a
folder source, otherwise the extension string selects the archive kind.
isDir and ext are the filesystem's answers for the source path. -/
def extTryFrom (isDir : Bool) (ext : Option String) : Except BinaryError Extension :=
  if isDir then .ok .folder
  else
    match ext with
    | none => .error (.unsupportedExtension "<error>")
    | some e =>
      if e = "gz" ∨ e = "tgz" then .ok .tarGz
      else if e = "xz" then .ok .tarXz
      else if e = "zip" then .ok .zip
      else .error (.unsupportedExtension e)

/-- Embeds UrlBinary. -/
structure UrlBinary where
  url : String
  checksum : Option String
  paths : Option (List String)
deriving DecidableEq, Repr

/-- The answers the environment gives make_available: whether the source
path is a directory and its extension, the bytes obtained by local read
or network download (modelled as strings), the digest function, and the
outcomes of the symlink, directory-creation, marker-write and
decompression effects. -/
structure FetchEnv where
  isDir : Bool
  pathExt : Option String
  readLocal : Option String
  httpGet : Option String
  sha256 : String → String
  symlinkOk : Bool
  createDirOk : Bool
  writeOk : Bool
  decompressOk : Bool

/-- Embeds make_available: classify the source, obtain the bytes, verify
the checksum, then persist the marker and decompress.  The folder branch
(symlink management) is summarized by the symlink oracle outcome. -/
def make_available (env : FetchEnv) (bin : UrlBinary) : Except BinaryError Unit :=
  let isLocal := strStarts bin.url "file://"
  let url := if isLocal then strDrop bin.url 7 else bin.url
  match extTryFrom env.isDir env.pathExt with
  | .error e => .error e
  | .ok ext =>
    if ext = .folder then
      if isLocal = false then .error (.unsupportedExtension "<folder>")
      else if env.symlinkOk then .ok () else .error .symlinkError
    else
      match
        (match isLocal, env.readLocal, env.httpGet with
         | true, none, _ => .error .localFileError
         | true, some f, _ => .ok f
         | false, _, none => .error .downloadError
         | false, _, some f => .ok f : Except BinaryError String) with
      | .error e => .error e
      | .ok file =>
        let calculated := env.sha256 file
        match bin.checksum with
        | some ch =>
          if ch = calculated then
            if env.createDirOk = false then .error .decompressError
            else if env.writeOk = false then .error .decompressError
            else if env.decompressOk = false then .error .decompressError
            else .ok ()
          else .error (.invalidChecksum url ch calculated)
        | none => .error (.invalidChecksum url "<empty>" calculated)

/-! ### merge_binary (meta/src/binary.rs lines 348-383) -/

/-- Embeds Value::get on an arbitrary value: a table indexes by key,
anything else gives none. -/
def vget (v : TValue) (k : String) : Option TValue :=
  match v with
  | .table t => tget t k
  | _ => none

/-- Association-list removal for table keys: Table::remove. -/
def removeKey (t : TTable) (k : String) : TTable :=
  match t with
  | [] => []
  | (k2, v) :: rest => if k2 = k then rest else (k2, v) :: removeKey rest k

/-- The provides rewriting inside merge_binary: every name of a provides
array must be a string (IncompatibleMerge otherwise); the named entry of
rhs (created empty when absent) gets follows = the providing key and
loses its url.  unwrapFailure models the as_table_mut unwrap on an
existing non-table entry. -/
def normProvides (key : String) (names : List TValue) (rhs : TTable) :
    Except MError TTable :=
  match names with
  | [] => .ok rhs
  | n :: rest =>
    match n with
    | .str name =>
      match tget rhs name with
      | some (.table p) =>
        normProvides key rest
          (tset rhs name (.table (removeKey (tset p "follows" (.str key)) "url")))
      | none =>
        normProvides key rest
          (tset rhs name (.table (removeKey (tset [] "follows" (.str key)) "url")))
      | some _ => .error .unwrapFailure
    | _ => .error .incompatibleMerge

/-- One step of the overwrite-mode normalization of merge_binary: an
incoming url drops the follows key of the existing entry, and an
incoming provides array rewrites the provided entries. -/
def normStep (rhs : TTable) (key : String) (value : TValue) : Except MError TTable :=
  let rhs1 :=
    if (vget value "url").isSome then
      match tget rhs key with
      | some (.table pkg) => tset rhs key (.table (removeKey pkg "follows"))
      | _ => rhs
    else rhs
  match vget value "provides" with
  | some (.arr provides) => normProvides key provides rhs1
  | _ => .ok rhs1

/-- The normalization loop over all incoming entries. -/
def normLoop (rhs : TTable) (lhs : List (String × TValue)) : Except MError TTable :=
  match lhs with
  | [] => .ok rhs
  | (k, v) :: rest =>
    match normStep rhs k v with
    | .error e => .error e
    | .ok r => normLoop r rest

/-- True when a package entry holds both a url and a follows key. -/
def bothUrlFollows (v : TValue) : Bool :=
  (vget v "url").isSome && (vget v "follows").isSome

/-- The final validation loop of merge_binary: an entry with both url and
follows is a merge conflict. -/
def checkEntries (t : List (String × TValue)) : Except MError Unit :=
  match t with
  | [] => .ok ()
  | (_, v) :: rest =>
    if bothUrlFollows v then .error .incompatibleMerge else checkEntries rest

/-- Embeds merge_binary: normalize under overwrite, run the regular
merge, then reject any entry holding both url and follows. -/
def merge_binary (ow : Bool) (rhs lhs : TTable) : Except MError TTable :=
  match (if ow then normLoop rhs lhs else .ok rhs) with
  | .error e => .error e
  | .ok rhs2 =>
    match merge ow rhs2 lhs with
    | .error e => .error e
    | .ok r =>
      match checkEntries r with
      | .error e => .error e
      | .ok _ => .ok r

/-! ### Support definitions for the stated properties -/

/-- A scalar toml value (string, integer or boolean). -/
def isScalar (v : TValue) : Bool :=
  match v with
  | .arr _ => false
  | .table _ => false
  | _ => true

mutual

/-- A well-formed value: every table along the table spine has unique
keys.  Every value deserialized from a real toml map satisfies this. -/
def wfValue : TValue → Bool
  | .table t => wfEntries t
  | _ => true

/-- Well-formedness of a table: unique keys, well-formed values. -/
def wfEntries : List (String × TValue) → Bool
  | [] => true
  | (k, v) :: rest => wfValue v && decide (∀ p ∈ rest, p.1 ≠ k) && wfEntries rest

end

/-- A key that triggers the conditional branch of the reducer. -/
def isCfgKey (k : String) : Bool := strStarts k "cfg("

mutual

/-- No key of the form cfg(...) at any nesting depth of a value. -/
def cfgFreeVal : TValue → Bool
  | .table t => cfgFreeTable t
  | .arr xs => cfgFreeList xs
  | _ => true

/-- No key of the form cfg(...) at any nesting depth of a table. -/
def cfgFreeTable : List (String × TValue) → Bool
  | [] => true
  | (k, v) :: rest => !isCfgKey k && cfgFreeVal v && cfgFreeTable rest

/-- No key of the form cfg(...) at any nesting depth inside an array. -/
def cfgFreeList : List TValue → Bool
  | [] => true
  | v :: rest => cfgFreeVal v && cfgFreeList rest

end

mutual

/-- An input value whose predicate-guarded parts never smuggle predicate
keys into the reducer output: cfg() keys guard tables whose target keys
are not predicate keys and whose config tables are predicate-free, and
plain arrays (which the reducer copies verbatim) are predicate-free. -/
def goodVal : TValue → Bool
  | .table t => goodTable t
  | .arr xs => cfgFreeList xs
  | _ => true

/-- goodVal on every entry of a table, with guarded entries checked by
guardOk. -/
def goodTable : List (String × TValue) → Bool
  | [] => true
  | (k, v) :: rest => (if isCfgKey k then guardOk v else goodVal v) && goodTable rest

/-- The shape required of a true predicate's guarded table for its fold
to stay predicate-free (a non-table guarded value makes reduce fail, so
it is vacuously fine). -/
def guardOk : TValue → Bool
  | .table inner => guardEntries inner
  | _ => true

/-- Target entries of a guarded table: non-predicate keys with
predicate-free config tables. -/
def guardEntries : List (String × TValue) → Bool
  | [] => true
  | (tk, tv) :: rest => !isCfgKey tk && cfgFreeVal tv && guardEntries rest

end

/-- Models check_cfg on three fixed cfg-expr expressions whose value is
the same on every build target: all() and not(any()) are always true,
any() is always false; everything else is reported unsupported. -/
def evAllAny : CfgOracle := fun p =>
  if p = "all()" then .ok true
  else if p = "not(any())" then .ok true
  else if p = "any()" then .ok false
  else .error (.unsupportedCfg p)

/-- Distinct package names for the linear-chain dependency graph. -/
def chainName (i : Nat) : String := String.mk (List.replicate i 'a')

/-- The node of package i in a linear chain of depth n+1: package 0 is
the leaf declaring value = a, packages 1..n are empty intermediates, and
package n+1 is the root declaring value = b.  Every package except the
root has its sole dependent as parent; every package except the leaf has
one child. -/
def chainNode (n : Nat) (a b : String) (i : Nat) : MetadataNode :=
  ⟨if i = 0 then [("value", .str a)] else if i = n + 1 then [("value", .str b)] else [],
   if i = n + 1 then [] else [chainName (i + 1)],
   if i = 0 then 0 else 1⟩

/-- The sublist of chain nodes cnt entries long starting at index i. -/
def chainFrom (n : Nat) (a b : String) : Nat → Nat → List (String × MetadataNode)
  | 0, _ => []
  | cnt + 1, i => (chainName i, chainNode n a b i) :: chainFrom n a b cnt (i + 1)

/-- The node map of a linear dependency chain of depth n+1. -/
def chainNodes (n : Nat) (a b : String) : List (String × MetadataNode) :=
  chainFrom n a b (n + 2) 0

/-- The supplemental subpaths a parsed info document declares: the
string elements of its top-level paths array. -/
def infoDeclared (info : Option TTable) (q : String) : Prop :=
  match info with
  | none => False
  | some t =>
    match tget t "paths" with
    | some (.arr ps) => TValue.str q ∈ ps
    | _ => False

/-! ## Lemmas about tables and the merge engine -/

theorem merge_nil (ow : Bool) (base : TTable) : merge ow base [] = .ok base := by
  rw [merge]

theorem merge_cons (ow : Bool) (base : TTable) (k : String) (v : TValue)
    (rest : List (String × TValue)) :
    merge ow base ((k, v) :: rest) =
      match tget base k with
      | none => merge ow (tset base k v) rest
      | some rv =>
        if rv = v then merge ow base rest
        else if sameKind rv v = false then .error .incompatibleMerge
        else
          match rv, v with
          | .arr ra, .arr la => merge ow (tset base k (.arr (mergeArrayPush ra la))) rest
          | .table rt, .table lt =>
            match merge ow rt lt with
            | .error e => .error e
            | .ok m => merge ow (tset base k (.table m)) rest
          | _, _ => if ow then merge ow (tset base k v) rest else .error .incompatibleMerge := by
  rw [merge]

theorem tget_tset_self (t : TTable) (k : String) (v : TValue) :
    tget (tset t k v) k = some v := by
  induction t with
  | nil => simp [tset, tget]
  | cons kv rest ih =>
    obtain ⟨k2, v2⟩ := kv
    by_cases h : k2 = k <;> simp [tset, tget, h, ih]

theorem tget_tset_ne (t : TTable) (k k2 : String) (v : TValue) (h : k ≠ k2) :
    tget (tset t k v) k2 = tget t k2 := by
  induction t with
  | nil => simp [tset, tget, h]
  | cons kv rest ih =>
    obtain ⟨k3, v3⟩ := kv
    by_cases h3 : k3 = k
    · subst h3; simp [tset, tget, h]
    · simp [tset, tget, h3, ih]

theorem tset_eq_self (t : TTable) (k : String) (v : TValue) (h : tget t k = some v) :
    tset t k v = t := by
  induction t with
  | nil => simp [tget] at h
  | cons kv rest ih =>
    obtain ⟨k2, v2⟩ := kv
    by_cases h2 : k2 = k
    · subst h2
      simp [tget] at h
      simp [tset, h]
    · simp [tget, h2] at h
      simp [tset, h2, ih h]

theorem mem_mergeArrayPush (r l : List TValue) (x : TValue) :
    x ∈ mergeArrayPush r l ↔ x ∈ r ∨ x ∈ l := by
  induction l generalizing r with
  | nil => simp [mergeArrayPush]
  | cons v rest ih =>
    simp only [mergeArrayPush]
    by_cases hv : v ∈ r
    · rw [if_pos hv, ih]
      simp only [List.mem_cons]
      constructor
      · rintro (h | h)
        · exact Or.inl h
        · exact Or.inr (Or.inr h)
      · rintro (h | h | h)
        · exact Or.inl h
        · exact Or.inl (h ▸ hv)
        · exact Or.inr h
    · rw [if_neg hv, ih]
      simp only [List.mem_append, List.mem_singleton, List.mem_cons]
      tauto

theorem mergeArrayPush_absorb (r l : List TValue) (h : ∀ x ∈ l, x ∈ r) :
    mergeArrayPush r l = r := by
  induction l with
  | nil => rfl
  | cons v rest ih =>
    simp only [mergeArrayPush, if_pos (h v (List.mem_cons_self v rest))]
    exact ih fun x hx => h x (List.mem_cons_of_mem v hx)

theorem mergeArrayPush_spec (r l : List TValue) :
    ∃ extra, mergeArrayPush r l = r ++ extra ∧ extra.Nodup
      ∧ (∀ x ∈ extra, x ∈ l ∧ ¬ x ∈ r) ∧ ∀ x ∈ l, x ∈ r ++ extra := by
  induction l generalizing r with
  | nil => exact ⟨[], by simp [mergeArrayPush]⟩
  | cons v rest ih =>
    by_cases hv : v ∈ r
    · obtain ⟨extra, h1, h2, h3, h4⟩ := ih r
      refine ⟨extra, ?_, h2, ?_, ?_⟩
      · simpa [mergeArrayPush, hv] using h1
      · exact fun x hx => ⟨List.mem_cons_of_mem v (h3 x hx).1, (h3 x hx).2⟩
      · intro x hx
        rcases List.mem_cons.mp hx with h | h
        · exact List.mem_append_left _ (h ▸ hv)
        · exact h4 x h
    · obtain ⟨extra, h1, h2, h3, h4⟩ := ih (r ++ [v])
      refine ⟨v :: extra, ?_, ?_, ?_, ?_⟩
      · simp only [mergeArrayPush, if_neg hv]
        rw [h1, List.append_assoc]
        rfl
      · refine List.nodup_cons.mpr ⟨fun hmem => ?_, h2⟩
        exact (h3 v hmem).2 (List.mem_append_right _ (List.mem_singleton_self v))
      · intro x hx
        rcases List.mem_cons.mp hx with h | h
        · exact ⟨h ▸ List.mem_cons_self v rest, h ▸ hv⟩
        · refine ⟨List.mem_cons_of_mem v (h3 x h).1, fun hr => ?_⟩
          exact (h3 x h).2 (List.mem_append_left _ hr)
      · intro x hx
        rcases List.mem_cons.mp hx with h | h
        · subst h
          exact List.mem_append_right _ (List.mem_cons_self x extra)
        · have := h4 x h
          rcases List.mem_append.mp this with h5 | h5
          · rcases List.mem_append.mp h5 with h6 | h6
            · exact List.mem_append_left _ h6
            · exact List.mem_append_right _
                ((List.mem_singleton.mp h6) ▸ List.mem_cons_self v extra)
          · exact List.mem_append_right _ (List.mem_cons_of_mem v h5)

/-! ## C2: per-key behavior of the merge engine -/

/-- C2: merge handles each key of the incoming table by: inserting keys
absent from base as-is; treating equal values as a no-op; combining two
arrays into base's array followed by the incoming elements not already
present, order-preserving and duplicate-free among the additions;
recursing on two tables with the same overwrite flag; replacing a
differing scalar by the incoming one exactly when overwrite is true; and
failing with the merge-conflict error on differing kinds or on differing
scalars without overwrite. -/
theorem merge_key_behavior (ow : Bool) (base : TTable) (k : String) (v : TValue)
    (rest : List (String × TValue)) :
    (tget base k = none →
      merge ow base ((k, v) :: rest) = merge ow (tset base k v) rest)
  ∧ (tget base k = some v → merge ow base ((k, v) :: rest) = merge ow base rest)
  ∧ (∀ rv, tget base k = some rv → rv ≠ v → sameKind rv v = false →
      merge ow base ((k, v) :: rest) = .error .incompatibleMerge)
  ∧ (∀ ra la, tget base k = some (.arr ra) → v = .arr la → .arr ra ≠ v →
      merge ow base ((k, v) :: rest)
        = merge ow (tset base k (.arr (mergeArrayPush ra la))) rest
      ∧ ∃ extra, mergeArrayPush ra la = ra ++ extra ∧ extra.Nodup
          ∧ (∀ x ∈ extra, x ∈ la ∧ ¬ x ∈ ra) ∧ ∀ x ∈ la, x ∈ ra ++ extra)
  ∧ (∀ rt lt, tget base k = some (.table rt) → v = .table lt → .table rt ≠ v →
      merge ow base ((k, v) :: rest)
        = match merge ow rt lt with
          | .error e => .error e
          | .ok m => merge ow (tset base k (.table m)) rest)
  ∧ (∀ rv, tget base k = some rv → rv ≠ v → sameKind rv v = true → isScalar v = true →
      (ow = true → merge ow base ((k, v) :: rest) = merge ow (tset base k v) rest)
      ∧ (ow = false → merge ow base ((k, v) :: rest) = .error .incompatibleMerge)) := by
  refine ⟨?_, ?_, ?_, ?_, ?_, ?_⟩
  · intro h
    rw [merge_cons, h]
  · intro h
    rw [merge_cons, h]
    simp
  · intro rv h hne hsk
    rw [merge_cons, h]
    simp [hne, hsk]
  · intro ra la h hv hne
    subst hv
    refine ⟨?_, mergeArrayPush_spec ra la⟩
    rw [merge_cons, h]
    simp [hne, sameKind]
  · intro rt lt h hv hne
    subst hv
    rw [merge_cons, h]
    simp [hne, sameKind]
  · intro rv h hne hsk hscalar
    constructor <;> intro how <;> subst how <;> rw [merge_cons, h] <;>
      cases v <;> simp [isScalar] at hscalar <;>
      cases rv <;> simp [sameKind] at hsk <;> simp [hne, sameKind]

/-- Witness for C2 at concrete inputs: merging a differing-kind value
fails, and an absent key is inserted. -/
theorem merge_key_behavior_witness :
    merge false [("a", .str "x")] [("a", .int 1)] = .error .incompatibleMerge ∧
    merge true [] [("b", .bool true)] = merge true (tset [] "b" (.bool true)) [] := by
  constructor
  · exact (merge_key_behavior false [("a", .str "x")] "a" (.int 1) []).2.2.1
      (.str "x") rfl (by simp) rfl
  · exact (merge_key_behavior true [] "b" (.bool true) []).1 rfl


/-! ## C9: idempotence of merge under overwrite -/

theorem merge_keeps_keys (ow : Bool) (rhs lhs : TTable) :
    ∀ (R : TTable) (k : String), merge ow rhs lhs = .ok R →
      (∀ p ∈ lhs, p.1 ≠ k) → tget R k = tget rhs k := by
  induction rhs, lhs using merge.induct ow with
  | case1 rhs =>
    intro R k h hk
    rw [merge_nil] at h
    cases h
    rfl
  | case2 rhs k2 v rest htget ih =>
    intro R k h hk
    rw [merge_cons, htget] at h
    simp only [] at h
    rw [ih R k h fun p hp => hk p (List.mem_cons_of_mem _ hp)]
    exact tget_tset_ne _ _ _ _ (hk (k2, v) (List.mem_cons_self _ _))
  | case3 rhs k2 rest rv htget ih =>
    intro R k h hk
    rw [merge_cons, htget] at h
    simp only [if_pos] at h
    exact ih R k h fun p hp => hk p (List.mem_cons_of_mem _ hp)
  | case4 rhs k2 v rest rv htget hne hsk =>
    intro R k h hk
    rw [merge_cons, htget] at h
    simp only [if_neg hne, if_pos hsk] at h
    cases h
  | case5 rhs k2 rest ra la htget hne hsk ih =>
    intro R k h hk
    rw [merge_cons, htget] at h
    simp only [if_neg hne, if_neg hsk] at h
    rw [ih R k h fun p hp => hk p (List.mem_cons_of_mem _ hp)]
    exact tget_tset_ne _ _ _ _ (hk (k2, .arr la) (List.mem_cons_self _ _))
  | case6 rhs k2 rest rt lt e hmerge htget hne hsk ih =>
    intro R k h hk
    rw [merge_cons, htget] at h
    simp only [if_neg hne, if_neg hsk, hmerge] at h
    cases h
  | case7 rhs k2 rest rt lt m hmerge htget hne hsk ih1 ih2 =>
    intro R k h hk
    rw [merge_cons, htget] at h
    simp only [if_neg hne, if_neg hsk, hmerge] at h
    rw [ih2 R k h fun p hp => hk p (List.mem_cons_of_mem _ hp)]
    exact tget_tset_ne _ _ _ _ (hk (k2, .table lt) (List.mem_cons_self _ _))
  | case8 rhs k2 v rest rv htget hne hsk how hra hrt ih =>
    intro R k h hk
    rw [merge_cons, htget] at h
    simp only [if_neg hne, if_neg hsk] at h
    cases rv <;> cases v <;> simp only [sameKind, not_false_eq_true] at hsk <;>
      first
        | exact False.elim (hra _ _ rfl rfl)
        | exact False.elim (hrt _ _ rfl rfl)
        | (simp only [if_pos how] at h
           rw [ih R k h fun p hp => hk p (List.mem_cons_of_mem _ hp)]
           exact tget_tset_ne _ _ _ _ (hk _ (List.mem_cons_self _ _)))
  | case9 rhs k2 v rest rv htget hne hsk how hra hrt =>
    intro R k h hk
    rw [merge_cons, htget] at h
    simp only [if_neg hne, if_neg hsk] at h
    cases rv <;> cases v <;> simp only [sameKind, not_false_eq_true] at hsk <;>
      first
        | exact False.elim (hra _ _ rfl rfl)
        | exact False.elim (hrt _ _ rfl rfl)
        | (simp only [if_neg how] at h; cases h)

theorem wfEntries_cons (k : String) (v : TValue) (rest : List (String × TValue)) :
    wfEntries ((k, v) :: rest) = true ↔
      wfValue v = true ∧ (∀ p ∈ rest, p.1 ≠ k) ∧ wfEntries rest = true := by
  rw [wfEntries]
  simp [Bool.and_eq_true, decide_eq_true_iff, and_assoc]

theorem merge_idem_aux (ow : Bool) (A B : TTable) :
    ∀ R, wfEntries B = true → merge ow A B = .ok R → merge ow R B = .ok R := by
  induction A, B using merge.induct ow with
  | case1 A =>
    intro R hwf h
    rw [merge_nil] at h
    cases h
    exact merge_nil ow _
  | case2 A k2 v rest htget ih =>
    intro R hwf h
    obtain ⟨hv, hks, hrest⟩ := (wfEntries_cons k2 v rest).mp hwf
    rw [merge_cons, htget] at h
    simp only [] at h
    have hR : tget R k2 = some v := by
      rw [merge_keeps_keys ow _ rest R k2 h hks]
      exact tget_tset_self A k2 v
    rw [merge_cons, hR]
    simp only [if_pos]
    exact ih R hrest h
  | case3 A k2 rest rv htget ih =>
    intro R hwf h
    obtain ⟨hv, hks, hrest⟩ := (wfEntries_cons k2 rv rest).mp hwf
    rw [merge_cons, htget] at h
    simp only [if_pos] at h
    have hR : tget R k2 = some rv := by
      rw [merge_keeps_keys ow _ rest R k2 h hks]
      exact htget
    rw [merge_cons, hR]
    simp only [if_pos]
    exact ih R hrest h
  | case4 A k2 v rest rv htget hne hsk =>
    intro R hwf h
    rw [merge_cons, htget] at h
    simp only [if_neg hne, if_pos hsk] at h
    cases h
  | case5 A k2 rest ra la htget hne hsk ih =>
    intro R hwf h
    obtain ⟨hv, hks, hrest⟩ := (wfEntries_cons k2 (.arr la) rest).mp hwf
    rw [merge_cons, htget] at h
    simp only [if_neg hne, if_neg hsk] at h
    have hR : tget R k2 = some (.arr (mergeArrayPush ra la)) := by
      rw [merge_keeps_keys ow _ rest R k2 h hks]
      exact tget_tset_self A k2 _
    have hmem : mergeArrayPush (mergeArrayPush ra la) la = mergeArrayPush ra la :=
      mergeArrayPush_absorb _ _ fun x hx => (mem_mergeArrayPush ra la x).mpr (Or.inr hx)
    have hstep := ih R hrest h
    rw [merge_cons, hR]
    by_cases heq : TValue.arr (mergeArrayPush ra la) = .arr la
    · simp only [if_pos heq]
      exact hstep
    · simp only [if_neg heq, sameKind, Bool.true_eq_false, if_neg (by simp : ¬(false = true)),
        hmem, tset_eq_self R k2 _ hR]
      exact hstep
  | case6 A k2 rest rt lt e hmerge htget hne hsk ih =>
    intro R hwf h
    rw [merge_cons, htget] at h
    simp only [if_neg hne, if_neg hsk, hmerge] at h
    cases h
  | case7 A k2 rest rt lt m hmerge htget hne hsk ih1 ih2 =>
    intro R hwf h
    obtain ⟨hv, hks, hrest⟩ := (wfEntries_cons k2 (.table lt) rest).mp hwf
    rw [merge_cons, htget] at h
    simp only [if_neg hne, if_neg hsk, hmerge] at h
    have hlt : wfEntries lt = true := by
      rw [wfValue] at hv
      exact hv
    have hmm : merge ow m lt = .ok m := ih1 m hlt hmerge
    have hR : tget R k2 = some (.table m) := by
      rw [merge_keeps_keys ow _ rest R k2 h hks]
      exact tget_tset_self A k2 _
    have hstep := ih2 R hrest h
    rw [merge_cons, hR]
    by_cases heq : TValue.table m = .table lt
    · simp only [if_pos heq]
      exact hstep
    · simp only [if_neg heq, sameKind, Bool.true_eq_false, if_neg (by simp : ¬(false = true)),
        hmm, tset_eq_self R k2 _ hR]
      exact hstep
  | case8 A k2 v rest rv htget hne hsk how hra hrt ih =>
    intro R hwf h
    obtain ⟨hv, hks, hrest⟩ := (wfEntries_cons k2 v rest).mp hwf
    rw [merge_cons, htget] at h
    simp only [if_neg hne, if_neg hsk] at h
    cases rv <;> cases v <;> simp only [sameKind, not_false_eq_true] at hsk <;>
      first
        | exact False.elim (hra _ _ rfl rfl)
        | exact False.elim (hrt _ _ rfl rfl)
        | (simp only [if_pos how] at h
           have hR := merge_keeps_keys ow _ rest R k2 h hks
           rw [tget_tset_self] at hR
           rw [merge_cons, hR]
           simp only [if_pos]
           exact ih R hrest h)
  | case9 A k2 v rest rv htget hne hsk how hra hrt =>
    intro R hwf h
    rw [merge_cons, htget] at h
    simp only [if_neg hne, if_neg hsk] at h
    cases rv <;> cases v <;> simp only [sameKind, not_false_eq_true] at hsk <;>
      first
        | exact False.elim (hra _ _ rfl rfl)
        | exact False.elim (hrt _ _ rfl rfl)
        | (simp only [if_neg how] at h; cases h)

/-- C9: merge is idempotent under overwrite: when merging B into A
succeeds with result R, merging B into R succeeds again and changes
nothing.  B carries unique keys along its table spine, as every table
deserialized from toml does. -/
theorem merge_overwrite_idempotent (A B R : TTable) (hwf : wfEntries B = true)
    (h : merge true A B = .ok R) : merge true R B = .ok R :=
  merge_idem_aux true A B R hwf h

/-- Witness for C9: a concrete merge exercising the scalar-overwrite,
array-append and fresh-table cases, re-merged without change. -/
theorem merge_overwrite_idempotent_witness :
    merge true [("a", .str "y"), ("l", .arr [.int 1, .int 2]), ("t", .table [("k", .bool true)])]
      [("a", .str "y"), ("l", .arr [.int 1, .int 2]), ("t", .table [("k", .bool true)])]
    = .ok [("a", .str "y"), ("l", .arr [.int 1, .int 2]), ("t", .table [("k", .bool true)])] :=
  merge_overwrite_idempotent
    [("a", .str "x"), ("l", .arr [.int 1])]
    [("a", .str "y"), ("l", .arr [.int 1, .int 2]), ("t", .table [("k", .bool true)])]
    [("a", .str "y"), ("l", .arr [.int 1, .int 2]), ("t", .table [("k", .bool true)])]
    (by simp [wfEntries, wfValue])
    (by simp [merge_cons, merge_nil, tget, tset, sameKind, mergeArrayPush])

/-! ## C4: cache-validity decision -/

/-- C4: check_valid_dir returns invalid when the destination does not
exist; fails with the directory-is-file error when it exists as a plain
file; with a declared checksum it returns valid exactly when the marker
file exists and its content reads back equal to the declared checksum;
and it returns invalid whenever no checksum is declared. -/
theorem check_valid_dir_behavior (path : String) (dst : DirState) (checksum : Option String) :
    (dst.tryExists = some false → check_valid_dir path dst checksum = .ok false)
  ∧ (dst.tryExists = some true → dst.isFile = true →
      check_valid_dir path dst checksum = .error (.directoryIsFile path))
  ∧ (∀ ch, checksum = some ch → dst.tryExists = some true → dst.isFile = false →
      (check_valid_dir path dst checksum = .ok true ↔
        dst.markerIsFile = true ∧ dst.markerRead = some ch))
  ∧ (checksum = none → dst.tryExists = some true → dst.isFile = false →
      check_valid_dir path dst checksum = .ok false) := by
  refine ⟨?_, ?_, ?_, ?_⟩
  · intro h
    simp [check_valid_dir, h]
  · intro h1 h2
    simp [check_valid_dir, h1, h2]
  · intro ch hch h1 h2
    subst hch
    cases hm : dst.markerIsFile
    · simp [check_valid_dir, h1, h2, hm]
    · cases hr : dst.markerRead with
      | none => simp [check_valid_dir, h1, h2, hm, hr]
      | some content =>
        simp only [check_valid_dir, h1, h2, hm, hr, Bool.false_eq_true, if_false,
          if_true, Except.ok.injEq, decide_eq_true_iff, true_and, Option.some.injEq]
        constructor
        · intro he
          exact he.symm
        · intro he
          exact he.symm
  · intro hch h1 h2
    simp [check_valid_dir, hch, h1, h2]

/-- Witness for C4: a destination directory whose marker matches the
declared checksum is valid. -/
theorem check_valid_dir_behavior_witness :
    check_valid_dir "p" ⟨some true, false, true, some "abc"⟩ (some "abc") = .ok true :=
  ((check_valid_dir_behavior "p" ⟨some true, false, true, some "abc"⟩
    (some "abc")).2.2.1 "abc" rfl rfl rfl).mpr ⟨rfl, rfl⟩

/-! ## C5: lookup precedence in the Paths index -/

/-- C5: Paths::get returns the explicit list for the exact name when one
exists; otherwise the exact alias target's list; otherwise the first
matching wildcard's target list; and nothing when none of these apply. -/
theorem paths_get_precedence (P : Paths) (key : String) :
    (∀ l, alookup P.paths key = some l → P.get key = some l)
  ∧ (alookup P.paths key = none → ∀ f, alookup P.follows key = some f →
      P.get key = alookup P.paths f)
  ∧ (alookup P.paths key = none → alookup P.follows key = none →
      P.get key = P.wildcards.findSome? fun kv =>
        if strStarts key kv.1 then alookup P.paths kv.2 else none)
  ∧ (alookup P.paths key = none → alookup P.follows key = none →
      (∀ kv ∈ P.wildcards, strStarts key kv.1 = false) →
      P.get key = none) := by
  refine ⟨?_, ?_, ?_, ?_⟩
  · intro l h
    simp [Paths.get, h]
  · intro h1 f h2
    simp [Paths.get, h1, h2]
  · intro h1 h2
    simp [Paths.get, h1, h2]
  · intro h1 h2 h3
    simp only [Paths.get, h1, h2]
    rw [List.findSome?_eq_none_iff]
    intro kv hkv
    simp [h3 kv hkv]

/-- Witness for C5: an explicit entry for x123 wins over the wildcard
alias with prefix x, as in the provides example of the specification. -/
theorem paths_get_precedence_witness :
    Paths.get ⟨[("x123", ["p1"]), ("pkg", ["p2"])], [], [("x", "pkg")]⟩ "x123" = some ["p1"] :=
  (paths_get_precedence ⟨[("x123", ["p1"]), ("pkg", ["p2"])], [], [("x", "pkg")]⟩ "x123").1
    ["p1"] (by simp [alookup])

/-! ## C10: a Direct entry without a checksum can never refresh
successfully -/

/-- Classifying a non-directory source never yields the folder kind. -/
theorem extTryFrom_not_folder (ext : Option String) (e : Extension)
    (h : extTryFrom false ext = .ok e) : e ≠ .folder := by
  unfold extTryFrom at h
  cases ext with
  | none => cases h
  | some s =>
    simp only [Bool.false_eq_true, if_false] at h
    by_cases h1 : s = "gz" ∨ s = "tgz"
    · rw [if_pos h1] at h
      cases h
      simp
    · rw [if_neg h1] at h
      by_cases h2 : s = "xz"
      · rw [if_pos h2] at h
        cases h
        simp
      · rw [if_neg h2] at h
        by_cases h3 : s = "zip"
        · rw [if_pos h3] at h
          cases h
          simp
        · rw [if_neg h3] at h
          cases h

/-- C10: a url entry that is not a local folder and declares no checksum
can never be made available: the cache is always reported invalid, and
once the bytes are obtained make_available always fails with the
invalid-checksum error carrying the placeholder declared value. -/
theorem no_checksum_never_succeeds :
    (∀ path dst, check_valid_dir path dst none ≠ .ok true)
  ∧ (∀ (env : FetchEnv) (bin : UrlBinary) (file : String) (e : Extension),
      bin.checksum = none → env.isDir = false →
      extTryFrom env.isDir env.pathExt = .ok e →
      (if strStarts bin.url "file://" then env.readLocal else env.httpGet) = some file →
      make_available env bin = .error (.invalidChecksum
        (if strStarts bin.url "file://" then strDrop bin.url 7 else bin.url)
        "<empty>" (env.sha256 file))) := by
  constructor
  · intro path dst h
    unfold check_valid_dir at h
    cases he : dst.tryExists with
    | none => rw [he] at h; cases h
    | some b =>
      cases b
      · rw [he] at h; cases h
      · rw [he] at h
        cases hf : dst.isFile
        · rw [hf] at h
          simp at h
        · rw [hf] at h
          simp at h
  · intro env bin file e hch hdir hext hbytes
    rw [hdir] at hext
    have hf := extTryFrom_not_folder env.pathExt e hext
    unfold make_available
    rw [hdir, hext]
    simp only [if_neg hf]
    cases hl : strStarts bin.url "file://" <;> rw [hl] at hbytes <;>
      simp at hbytes <;> simp [hl, hbytes, hch]

/-- Witness for C10: a checksum-less web zip download fails with the
invalid-checksum error after the bytes arrive. -/
theorem no_checksum_never_succeeds_witness :
    make_available ⟨false, some "zip", none, some "bytes", fun _ => "digest",
        true, true, true, true⟩ ⟨"http://x/y.zip", none, none⟩
      = .error (.invalidChecksum "http://x/y.zip" "<empty>" "digest") := by
  have h := no_checksum_never_succeeds.2
    ⟨false, some "zip", none, some "bytes", fun _ => "digest", true, true, true, true⟩
    ⟨"http://x/y.zip", none, none⟩ "bytes" .zip rfl rfl (by simp [extTryFrom])
    (by rw [if_neg (by decide)])
  rw [if_neg (by decide)] at h
  exact h

/-! ## C8: merge_binary rejects entries with both url and follows -/

/-- A successful validation loop means no entry has both keys. -/
theorem checkEntries_ok (t : List (String × TValue)) (h : checkEntries t = .ok ()) :
    ∀ p ∈ t, bothUrlFollows p.2 = false := by
  induction t with
  | nil => intro p hp; cases hp
  | cons kv rest ih =>
    intro p hp
    unfold checkEntries at h
    cases hb : bothUrlFollows kv.2
    · rw [hb] at h
      simp only [Bool.false_eq_true, if_false] at h
      rcases List.mem_cons.mp hp with h2 | h2
      · rw [h2]
        exact hb
      · exact ih h p h2
    · rw [hb] at h
      simp at h

/-- An entry with both keys makes the validation loop fail. -/
theorem checkEntries_conflict (t : List (String × TValue))
    (h : ∃ p ∈ t, bothUrlFollows p.2 = true) : checkEntries t = .error .incompatibleMerge := by
  induction t with
  | nil => obtain ⟨p, hp, _⟩ := h; cases hp
  | cons kv rest ih =>
    obtain ⟨p, hp, hb⟩ := h
    unfold checkEntries
    rcases List.mem_cons.mp hp with h2 | h2
    · rw [← h2, hb]
      simp
    · cases hk : bothUrlFollows kv.2
      · simp only [Bool.false_eq_true, if_false]
        exact ih ⟨p, h2, hb⟩
      · simp

/-- C8: whenever merge_binary succeeds no entry of the result holds both
a url and a follows key, and whenever the table produced by the
normalization and the regular merge has such an entry, merge_binary
fails with the merge-conflict error instead. -/
theorem merge_binary_url_follows (ow : Bool) (rhs lhs : TTable) :
    (∀ r, merge_binary ow rhs lhs = .ok r → ∀ p ∈ r, bothUrlFollows p.2 = false)
  ∧ (∀ rhs2 r, (if ow then normLoop rhs lhs else .ok rhs) = .ok rhs2 →
      merge ow rhs2 lhs = .ok r → (∃ p ∈ r, bothUrlFollows p.2 = true) →
      merge_binary ow rhs lhs = .error .incompatibleMerge) := by
  constructor
  · intro r h
    unfold merge_binary at h
    cases hn : (if ow then normLoop rhs lhs else .ok rhs) with
    | error e => rw [hn] at h; cases h
    | ok rhs2 =>
      rw [hn] at h
      simp only [] at h
      cases hm : merge ow rhs2 lhs with
      | error e => rw [hm] at h; simp only [] at h; cases h
      | ok r2 =>
        rw [hm] at h
        simp only [] at h
        cases hc : checkEntries r2 with
        | error e => rw [hc] at h; simp only [] at h; cases h
        | ok u =>
          cases u
          rw [hc] at h
          simp only [] at h
          cases h
          exact checkEntries_ok _ hc
  · intro rhs2 r hn hm hex
    unfold merge_binary
    rw [hn]
    simp only [] 
    rw [hm]
    simp only []
    rw [checkEntries_conflict r hex]

/-- Witness for C8: merging an incoming url into an entry that already
follows another package without overwrite is rejected. -/
theorem merge_binary_url_follows_witness :
    merge_binary false [("a", .table [("follows", .str "b")])]
      [("a", .table [("url", .str "u")])] = .error .incompatibleMerge := by
  refine (merge_binary_url_follows false [("a", .table [("follows", .str "b")])]
    [("a", .table [("url", .str "u")])]).2
    [("a", .table [("follows", .str "b")])]
    [("a", .table [("follows", .str "b"), ("url", .str "u")])]
    (by simp) ?_ ?_
  · simp [merge_cons, merge_nil, tget, tset, sameKind]
  · refine ⟨("a", .table [("follows", .str "b"), ("url", .str "u")]), by simp, ?_⟩
    simp [bothUrlFollows, vget, tget]


/-! ## C3: conditional reducer -/

theorem reduceGo_false_pred (ev : CfgOracle) (k s pred : String) (v : TValue)
    (hck : cfgInner k = some s) (hcp : closeParen s = some pred) (hev : ev pred = .ok false) :
    ∀ (pre post : List (String × TValue)) (res cond : TTable),
      reduceGo ev (pre ++ (k, v) :: post) res cond = reduceGo ev (pre ++ post) res cond := by
  intro pre
  induction pre with
  | nil =>
    intro post res cond
    simp only [List.nil_append]
    rw [reduceGo]
    simp only [hck, hcp, hev]
  | cons hd tl ih =>
    intro post res cond
    obtain ⟨k2, v2⟩ := hd
    simp only [List.cons_append]
    conv_lhs => rw [reduceGo]
    conv_rhs => rw [reduceGo]
    cases hck2 : cfgInner k2 with
    | none =>
      cases hat : asTable v2 with
      | none =>
        simp only [hck2, hat]
        exact ih post (tset res k2 v2) cond
      | some t =>
        cases hr : reduce ev t with
        | error e => simp only [hck2, hat, hr]
        | ok r =>
          simp only [hck2, hat, hr]
          exact ih post (tset res k2 (.table r)) cond
    | some s2 =>
      cases hcp2 : closeParen s2 with
      | none => simp only [hck2, hcp2]
      | some pred2 =>
        cases hev2 : ev pred2 with
        | error e => simp only [hck2, hcp2, hev2]
        | ok b =>
          cases b
          · simp only [hck2, hcp2, hev2]
            exact ih post res cond
          · cases hat : asTable v2 with
            | none => simp only [hck2, hcp2, hev2, hat]
            | some inner =>
              cases hf : foldCond k2 inner cond with
              | error e => simp only [hck2, hcp2, hev2, hat, hf]
              | ok cond2 =>
                simp only [hck2, hcp2, hev2, hat, hf]
                exact ih post res cond2

/-- C3: a cfg() key whose predicate evaluates false is discarded without
touching the rest of the document; two different true predicates
assigning conflicting values under the same target key are a merge
conflict (their config tables are folded with overwrite=false); and the
accumulated predicate-derived values override the unconditioned defaults
(merged with overwrite=true at the end). -/
theorem reduce_conditional_behavior :
    (∀ (ev : CfgOracle) (k s pred : String) (v : TValue)
        (pre post : List (String × TValue)),
      cfgInner k = some s → closeParen s = some pred → ev pred = .ok false →
      reduce ev (pre ++ (k, v) :: post) = reduce ev (pre ++ post))
  ∧ (reduce evAllAny
      [("cfg(all())", .table [("dep", .table [("x", .str "a")])]),
       ("cfg(not(any()))", .table [("dep", .table [("x", .str "b")])])]
      = .error .incompatibleMerge)
  ∧ (reduce evAllAny
      [("dep", .table [("x", .str "default")]),
       ("cfg(all())", .table [("dep", .table [("x", .str "override")])])]
      = .ok [("dep", .table [("x", .str "override")])]) := by
  refine ⟨?_, ?_, ?_⟩
  · intro ev k s pred v pre post hck hcp hev
    rw [reduce, reduce]
    exact reduceGo_false_pred ev k s pred v hck hcp hev pre post [] []
  · have h1 : cfgInner "cfg(all())" = some "all())" := by decide
    have h2 : closeParen "all())" = some "all()" := by decide
    have h3 : evAllAny "all()" = .ok true := by simp [evAllAny]
    have h4 : cfgInner "cfg(not(any()))" = some "not(any()))" := by decide
    have h5 : closeParen "not(any()))" = some "not(any())" := by decide
    have h6 : evAllAny "not(any())" = .ok true := by simp [evAllAny]
    rw [reduce]
    simp [reduceGo, foldCond, asTable, h1, h2, h3, h4, h5, h6,
      merge_cons, merge_nil, tget, tset, sameKind]
  · have h1 : cfgInner "cfg(all())" = some "all())" := by decide
    have h2 : closeParen "all())" = some "all()" := by decide
    have h3 : evAllAny "all()" = .ok true := by simp [evAllAny]
    have h4 : cfgInner "dep" = none := by decide
    have h5 : cfgInner "x" = none := by decide
    rw [reduce]
    simp [reduce, reduceGo, foldCond, asTable, h1, h2, h3, h4, h5,
      merge_cons, merge_nil, tget, tset, sameKind]

/-- Witness for C3: the always-false predicate any() is dropped in place
over a concrete document. -/
theorem reduce_conditional_behavior_witness :
    reduce evAllAny [("cfg(any())", .str "garbage"), ("dep", .table [])]
      = reduce evAllAny [("dep", .table [])] :=
  reduce_conditional_behavior.1 evAllAny "cfg(any())" "any())" "any()" (.str "garbage")
    [] [("dep", .table [])] (by decide) (by decide) (by simp [evAllAny])


/-! ## C7: the explicit search-path list of a Direct entry -/

theorem asStr_eq_some (v : TValue) (q : String) : asStr v = some q ↔ v = .str q := by
  cases v <;> simp [asStr]

theorem infoFold_spec (dst : String) (ps : List String) (list : List String) :
    ∃ extra, infoFold dst ps list = list ++ extra ∧ extra.Nodup
      ∧ (∀ p ∈ extra, ¬ p ∈ list ∧ ∃ q ∈ ps, p = joinPath dst q)
      ∧ ∀ q ∈ ps, joinPath dst q ∈ list ++ extra := by
  induction ps generalizing list with
  | nil => exact ⟨[], by simp [infoFold]⟩
  | cons q rest ih =>
    by_cases hq : joinPath dst q ∈ list
    · obtain ⟨extra, h1, h2, h3, h4⟩ := ih list
      refine ⟨extra, ?_, h2, ?_, ?_⟩
      · simpa [infoFold, hq] using h1
      · intro p hp
        obtain ⟨hnl, q2, hq2, he⟩ := h3 p hp
        exact ⟨hnl, q2, List.mem_cons_of_mem _ hq2, he⟩
      · intro q2 hq2
        rcases List.mem_cons.mp hq2 with h | h
        · exact List.mem_append_left _ (h ▸ hq)
        · exact h4 q2 h
    · obtain ⟨extra, h1, h2, h3, h4⟩ := ih (list ++ [joinPath dst q])
      refine ⟨joinPath dst q :: extra, ?_, ?_, ?_, ?_⟩
      · rw [infoFold, if_neg hq, h1, List.append_assoc]
        rfl
      · refine List.nodup_cons.mpr ⟨fun hmem => ?_, h2⟩
        exact (h3 _ hmem).1 (List.mem_append_right _ (List.mem_singleton_self _))
      · intro p hp
        rcases List.mem_cons.mp hp with h | h
        · exact ⟨h ▸ hq, q, List.mem_cons_self _ _, h⟩
        · obtain ⟨hnl, q2, hq2, he⟩ := h3 p h
          refine ⟨fun hmem => hnl (List.mem_append_left _ hmem), q2,
            List.mem_cons_of_mem _ hq2, he⟩
      · intro q2 hq2
        rcases List.mem_cons.mp hq2 with h | h
        · subst h
          exact List.mem_append_right _ (List.mem_cons_self _ _)
        · have := h4 q2 h
          rcases List.mem_append.mp this with h5 | h5
          · rcases List.mem_append.mp h5 with h6 | h6
            · exact List.mem_append_left _ h6
            · exact List.mem_append_right _
                ((List.mem_singleton.mp h6) ▸ List.mem_cons_self _ _)
          · exact List.mem_append_right _ (List.mem_cons_of_mem _ h5)

/-- C7 (amended): the explicit list for a Direct entry equals the
destination directory joined with each configured relative subpath
(the empty list when none are configured, configured duplicates kept),
plus the subpaths declared by the info document, each appended only when
not already present; the info additions are duplicate-free and every
declared info subpath ends up in the list. -/
theorem build_path_list_spec (root name : String) (binPaths : Option (List String))
    (info : Option TTable) :
    ∃ extra,
      buildPathList root name binPaths info
        = (binPaths.getD []).map (fun p => joinPath (joinPath root name) p) ++ extra
      ∧ extra.Nodup
      ∧ (∀ p ∈ extra,
          ¬ p ∈ (binPaths.getD []).map (fun p => joinPath (joinPath root name) p)
          ∧ ∃ q, infoDeclared info q ∧ p = joinPath (joinPath root name) q)
      ∧ ∀ q, infoDeclared info q →
          joinPath (joinPath root name) q
            ∈ (binPaths.getD []).map (fun p => joinPath (joinPath root name) p) ++ extra := by
  unfold buildPathList addInfoPaths
  cases info with
  | none =>
    refine ⟨[], by simp [pathsFor], by simp, by simp, ?_⟩
    intro q hq
    simp [infoDeclared] at hq
  | some t =>
    cases hg : tget t "paths" with
    | none =>
      refine ⟨[], by simp [pathsFor, hg], by simp, by simp, ?_⟩
      intro q hq
      simp [infoDeclared, hg] at hq
    | some v =>
      cases v with
      | arr ps =>
        simp only [hg]
        obtain ⟨extra, h1, h2, h3, h4⟩ :=
          infoFold_spec (joinPath root name) (ps.filterMap asStr)
            (pathsFor root name binPaths)
        simp only [pathsFor] at h1 h3 h4
        refine ⟨extra, h1, h2, ?_, ?_⟩
        · intro p hp
          obtain ⟨hnl, q, hq, he⟩ := h3 p hp
          refine ⟨hnl, q, ?_, he⟩
          simp only [infoDeclared, hg]
          obtain ⟨v, hv1, hv2⟩ := List.mem_filterMap.mp hq
          exact ((asStr_eq_some v q).mp hv2) ▸ hv1
        · intro q hq
          simp only [infoDeclared, hg] at hq
          have hmem : q ∈ ps.filterMap asStr :=
            List.mem_filterMap.mpr ⟨.str q, hq, (asStr_eq_some _ q).mpr rfl⟩
          exact h4 q hmem
      | str a =>
        refine ⟨[], by simp [pathsFor, hg], by simp, by simp, ?_⟩
        intro q hq
        simp [infoDeclared, hg] at hq
      | int a =>
        refine ⟨[], by simp [pathsFor, hg], by simp, by simp, ?_⟩
        intro q hq
        simp [infoDeclared, hg] at hq
      | bool a =>
        refine ⟨[], by simp [pathsFor, hg], by simp, by simp, ?_⟩
        intro q hq
        simp [infoDeclared, hg] at hq
      | table a =>
        refine ⟨[], by simp [pathsFor, hg], by simp, by simp, ?_⟩
        intro q hq
        simp [infoDeclared, hg] at hq


/-- C7 counterexample: with no configured subpaths the list is empty,
not the destination directory itself; and duplicate configured subpaths
are kept, so the list is not duplicate-free. -/
theorem build_path_list_counterexample :
    (buildPathList "root" "dep" none none = []
      ∧ ([] : List String) ≠ [joinPath "root" "dep"])
  ∧ (buildPathList "root" "dep" (some ["a", "a"]) none
      = [joinPath (joinPath "root" "dep") "a", joinPath (joinPath "root" "dep") "a"]
    ∧ ¬ (buildPathList "root" "dep" (some ["a", "a"]) none).Nodup) := by
  refine ⟨⟨rfl, by simp⟩, rfl, by decide⟩



/-- Witness applying the amended C7 at a concrete entry. -/
theorem build_path_list_spec_witness :
    ∃ extra, buildPathList "r" "n" (some ["a"]) none
      = [joinPath (joinPath "r" "n") "a"] ++ extra :=
  (build_path_list_spec "r" "n" (some ["a"]) none).elim fun extra h =>
    ⟨extra, by rw [h.1]; rfl⟩

/-! ## C6: predicate keys in the reducer output -/


theorem cfgFreeTable_nil : cfgFreeTable [] = true := by rw [cfgFreeTable]

theorem cfgFreeTable_cons (k : String) (v : TValue) (rest : List (String × TValue)) :
    cfgFreeTable ((k, v) :: rest) = true ↔
      isCfgKey k = false ∧ cfgFreeVal v = true ∧ cfgFreeTable rest = true := by
  rw [cfgFreeTable]
  simp [Bool.and_eq_true, Bool.not_eq_true', and_assoc]

theorem cfgFreeVal_table (t : List (String × TValue)) :
    cfgFreeVal (.table t) = cfgFreeTable t := by rw [cfgFreeVal]

theorem cfgFreeVal_arr (l : List TValue) : cfgFreeVal (.arr l) = cfgFreeList l := by
  rw [cfgFreeVal]

theorem cfgFreeList_cons (v : TValue) (rest : List TValue) :
    cfgFreeList (v :: rest) = true ↔ cfgFreeVal v = true ∧ cfgFreeList rest = true := by
  rw [cfgFreeList]
  simp [Bool.and_eq_true]

theorem cfgFreeList_append (a b : List TValue) :
    cfgFreeList (a ++ b) = true ↔ cfgFreeList a = true ∧ cfgFreeList b = true := by
  induction a with
  | nil =>
    rw [List.nil_append]
    simp [cfgFreeList]
  | cons v rest ih =>
    rw [List.cons_append]
    rw [cfgFreeList_cons, cfgFreeList_cons]
    rw [ih]
    tauto

theorem goodTable_cons (k : String) (v : TValue) (rest : List (String × TValue)) :
    goodTable ((k, v) :: rest) = true ↔
      (if isCfgKey k then guardOk v else goodVal v) = true ∧ goodTable rest = true := by
  rw [goodTable]
  simp [Bool.and_eq_true]

theorem guardEntries_cons (k : String) (v : TValue) (rest : List (String × TValue)) :
    guardEntries ((k, v) :: rest) = true ↔
      isCfgKey k = false ∧ cfgFreeVal v = true ∧ guardEntries rest = true := by
  rw [guardEntries]
  simp [Bool.and_eq_true, Bool.not_eq_true', and_assoc]

theorem guardOk_table (t : List (String × TValue)) : guardOk (.table t) = guardEntries t := by
  rw [guardOk]

theorem goodVal_table (t : List (String × TValue)) : goodVal (.table t) = goodTable t := by
  rw [goodVal]

theorem asTable_some (v : TValue) (t : List (String × TValue)) (h : asTable v = some t) :
    v = .table t := by
  cases v <;> simp [asTable] at h
  rw [h]

theorem cfgInner_none_not_cfg (k : String) (h : cfgInner k = none) : isCfgKey k = false := by
  unfold cfgInner at h
  unfold isCfgKey
  by_cases hc : strStarts k "cfg(" <;> simp [hc] at h ⊢

theorem cfgInner_some_cfg (k s : String) (h : cfgInner k = some s) : isCfgKey k = true := by
  unfold cfgInner at h
  unfold isCfgKey
  by_cases hc : strStarts k "cfg(" <;> simp [hc] at h ⊢

theorem asTable_none_cfgFree (v : TValue) (h : asTable v = none) (hg : goodVal v = true) :
    cfgFreeVal v = true := by
  cases v with
  | table t => simp [asTable] at h
  | arr l =>
    rw [goodVal] at hg
    rw [cfgFreeVal]
    exact hg
  | str s => rw [cfgFreeVal] <;> nofun
  | int n => rw [cfgFreeVal] <;> nofun
  | bool b => rw [cfgFreeVal] <;> nofun

theorem cfgFree_tget (t : TTable) (k : String) (v : TValue) (h : cfgFreeTable t = true)
    (hg : tget t k = some v) : cfgFreeVal v = true := by
  induction t with
  | nil => cases hg
  | cons kv rest ih =>
    obtain ⟨k2, v2⟩ := kv
    obtain ⟨h1, h2, h3⟩ := (cfgFreeTable_cons k2 v2 rest).mp h
    by_cases he : k2 = k
    · rw [tget, if_pos he] at hg
      cases hg
      exact h2
    · rw [tget, if_neg he] at hg
      exact ih h3 hg

theorem cfgFree_tset (t : TTable) (k : String) (v : TValue) (h : cfgFreeTable t = true)
    (hk : isCfgKey k = false) (hv : cfgFreeVal v = true) :
    cfgFreeTable (tset t k v) = true := by
  induction t with
  | nil =>
    rw [tset]
    exact (cfgFreeTable_cons k v []).mpr ⟨hk, hv, cfgFreeTable_nil⟩
  | cons kv rest ih =>
    obtain ⟨k2, v2⟩ := kv
    obtain ⟨h1, h2, h3⟩ := (cfgFreeTable_cons k2 v2 rest).mp h
    by_cases he : k2 = k
    · rw [tset, if_pos he]
      exact (cfgFreeTable_cons k2 v rest).mpr ⟨he ▸ hk, hv, h3⟩
    · rw [tset, if_neg he]
      exact (cfgFreeTable_cons k2 v2 (tset rest k v)).mpr ⟨h1, h2, ih h3⟩

theorem cfgFree_mergeArrayPush (r l : List TValue) (hr : cfgFreeList r = true)
    (hl : cfgFreeList l = true) : cfgFreeList (mergeArrayPush r l) = true := by
  induction l generalizing r with
  | nil => exact hr
  | cons v rest ih =>
    obtain ⟨hv, hrest⟩ := (cfgFreeList_cons v rest).mp hl
    rw [mergeArrayPush]
    by_cases hm : v ∈ r
    · rw [if_pos hm]
      exact ih r hr hrest
    · rw [if_neg hm]
      refine ih (r ++ [v]) ?_ hrest
      refine (cfgFreeList_append r [v]).mpr ⟨hr, ?_⟩
      exact (cfgFreeList_cons v []).mpr ⟨hv, by rw [cfgFreeList]⟩



theorem merge_cfgFree (ow : Bool) (rhs lhs : TTable) :
    ∀ R, cfgFreeTable rhs = true → cfgFreeTable lhs = true →
      merge ow rhs lhs = .ok R → cfgFreeTable R = true := by
  induction rhs, lhs using merge.induct ow with
  | case1 rhs =>
    intro R hr hl h
    rw [merge_nil] at h
    cases h
    exact hr
  | case2 rhs k2 v rest htget ih =>
    intro R hr hl h
    obtain ⟨hk, hv, hrest⟩ := (cfgFreeTable_cons k2 v rest).mp hl
    rw [merge_cons, htget] at h
    simp only [] at h
    exact ih R (cfgFree_tset rhs k2 v hr hk hv) hrest h
  | case3 rhs k2 rest rv htget ih =>
    intro R hr hl h
    obtain ⟨hk, hv, hrest⟩ := (cfgFreeTable_cons k2 rv rest).mp hl
    rw [merge_cons, htget] at h
    simp only [if_pos] at h
    exact ih R hr hrest h
  | case4 rhs k2 v rest rv htget hne hsk =>
    intro R hr hl h
    rw [merge_cons, htget] at h
    simp only [if_neg hne, if_pos hsk] at h
    cases h
  | case5 rhs k2 rest ra la htget hne hsk ih =>
    intro R hr hl h
    obtain ⟨hk, hv, hrest⟩ := (cfgFreeTable_cons k2 (.arr la) rest).mp hl
    rw [merge_cons, htget] at h
    simp only [if_neg hne, if_neg hsk] at h
    have hra : cfgFreeList ra = true := by
      have := cfgFree_tget rhs k2 (.arr ra) hr htget
      rwa [cfgFreeVal_arr] at this
    have hla : cfgFreeList la = true := by
      rwa [cfgFreeVal_arr] at hv
    refine ih R (cfgFree_tset rhs k2 _ hr hk ?_) hrest h
    rw [cfgFreeVal_arr]
    exact cfgFree_mergeArrayPush ra la hra hla
  | case6 rhs k2 rest rt lt e hmerge htget hne hsk ih =>
    intro R hr hl h
    rw [merge_cons, htget] at h
    simp only [if_neg hne, if_neg hsk, hmerge] at h
    cases h
  | case7 rhs k2 rest rt lt m hmerge htget hne hsk ih1 ih2 =>
    intro R hr hl h
    obtain ⟨hk, hv, hrest⟩ := (cfgFreeTable_cons k2 (.table lt) rest).mp hl
    rw [merge_cons, htget] at h
    simp only [if_neg hne, if_neg hsk, hmerge] at h
    have hrt : cfgFreeTable rt = true := by
      have := cfgFree_tget rhs k2 (.table rt) hr htget
      rwa [cfgFreeVal_table] at this
    have hlt : cfgFreeTable lt = true := by
      rwa [cfgFreeVal_table] at hv
    have hm : cfgFreeTable m = true := ih1 m hrt hlt hmerge
    refine ih2 R (cfgFree_tset rhs k2 _ hr hk ?_) hrest h
    rw [cfgFreeVal_table]
    exact hm
  | case8 rhs k2 v rest rv htget hne hsk how hra hrt ih =>
    intro R hr hl h
    obtain ⟨hk, hv, hrest⟩ := (cfgFreeTable_cons k2 v rest).mp hl
    rw [merge_cons, htget] at h
    simp only [if_neg hne, if_neg hsk] at h
    cases rv <;> cases v <;> simp only [sameKind, not_false_eq_true] at hsk <;>
      first
        | exact False.elim (hra _ _ rfl rfl)
        | exact False.elim (hrt _ _ rfl rfl)
        | (simp only [if_pos how] at h
           exact ih R (cfgFree_tset rhs k2 _ hr hk hv) hrest h)
  | case9 rhs k2 v rest rv htget hne hsk how hra hrt =>
    intro R hr hl h
    rw [merge_cons, htget] at h
    simp only [if_neg hne, if_neg hsk] at h
    cases rv <;> cases v <;> simp only [sameKind, not_false_eq_true] at hsk <;>
      first
        | exact False.elim (hra _ _ rfl rfl)
        | exact False.elim (hrt _ _ rfl rfl)
        | (simp only [if_neg how] at h; cases h)

theorem foldCond_cfgFree (key : String) (inner : List (String × TValue)) :
    ∀ cond C, guardEntries inner = true → cfgFreeTable cond = true →
      foldCond key inner cond = .ok C → cfgFreeTable C = true := by
  induction inner with
  | nil =>
    intro cond C hg hc h
    rw [foldCond] at h
    cases h
    exact hc
  | cons kv rest ih =>
    intro cond C hg hc h
    obtain ⟨ik, v⟩ := kv
    obtain ⟨hk, hv, hrest⟩ := (guardEntries_cons ik v rest).mp hg
    rw [foldCond] at h
    cases hat : asTable v with
    | none => rw [hat] at h; cases h
    | some vt =>
      rw [hat] at h
      have hvt : cfgFreeTable vt = true := by
        rw [asTable_some v vt hat, cfgFreeVal_table] at hv
        exact hv
      cases hget : tget cond ik with
      | none =>
        rw [hget] at h
        simp only [] at h
        cases hm : merge false [] vt with
        | error e => rw [hm] at h; cases h
        | ok m =>
          rw [hm] at h
          simp only [] at h
          refine ih (tset cond ik (.table m)) C hrest ?_ h
          refine cfgFree_tset cond ik _ hc hk ?_
          rw [cfgFreeVal_table]
          exact merge_cfgFree false [] vt m cfgFreeTable_nil hvt hm
      | some cv =>
        rw [hget] at h
        simp only [] at h
        cases hat2 : asTable cv with
        | none => rw [hat2] at h; cases h
        | some prev =>
          rw [hat2] at h
          simp only [] at h
          have hprev : cfgFreeTable prev = true := by
            have := cfgFree_tget cond ik cv hc hget
            rw [asTable_some cv prev hat2, cfgFreeVal_table] at this
            exact this
          cases hm : merge false prev vt with
          | error e => rw [hm] at h; cases h
          | ok m =>
            rw [hm] at h
            simp only [] at h
            refine ih (tset cond ik (.table m)) C hrest ?_ h
            refine cfgFree_tset cond ik _ hc hk ?_
            rw [cfgFreeVal_table]
            exact merge_cfgFree false prev vt m hprev hvt hm



theorem reduceGo_cons_noncfg_table (ev : CfgOracle) (ik : String)
    (t rest : List (String × TValue)) (res cond : TTable) (hck : cfgInner ik = none) :
    reduceGo ev ((ik, .table t) :: rest) res cond =
      match reduce ev t with
      | .error e => .error e
      | .ok r => reduceGo ev rest (tset res ik (.table r)) cond := by
  rw [reduceGo]
  simp only [hck]
  rfl

theorem reduceGo_cfgFree (ev : CfgOracle) :
    ∀ (entries : List (String × TValue)) (res cond : TTable),
      goodTable entries = true → cfgFreeTable res = true → cfgFreeTable cond = true →
      ∀ R, reduceGo ev entries res cond = .ok R → cfgFreeTable R = true := by
  refine reduceGo.induct ev
    (fun entries res cond => goodTable entries = true → cfgFreeTable res = true →
      cfgFreeTable cond = true → ∀ R, reduceGo ev entries res cond = .ok R →
      cfgFreeTable R = true)
    (fun t => goodTable t = true → ∀ R, reduce ev t = .ok R → cfgFreeTable R = true)
    ?_ ?_ ?_ ?_ ?_ ?_ ?_ ?_ ?_ ?_ ?_
  · intro res cond hg hres hcond R h
    rw [reduceGo] at h
    exact merge_cfgFree true res cond R hres hcond h
  · intro res cond ik v rest inner0 hck hcp hg hres hcond R h
    rw [reduceGo] at h
    simp only [hck, hcp] at h
    cases h
  · intro res cond ik v rest inner0 hck pred hcp e hev hg hres hcond R h
    rw [reduceGo] at h
    simp only [hck, hcp, hev] at h
    cases h
  · intro res cond ik v rest inner0 hck pred hcp hev ih hg hres hcond R h
    obtain ⟨hh, hrest⟩ := (goodTable_cons ik v rest).mp hg
    rw [reduceGo] at h
    simp only [hck, hcp, hev] at h
    exact ih hrest hres hcond R h
  · intro res cond ik v rest inner0 hck pred hcp hev hat hg hres hcond R h
    rw [reduceGo] at h
    simp only [hck, hcp, hev, hat] at h
    cases h
  · intro res cond ik v rest inner0 hck pred hcp hev prev hat e hf hg hres hcond R h
    rw [reduceGo] at h
    simp only [hck, hcp, hev, hat, hf] at h
    cases h
  · intro res cond ik v rest inner0 hck pred hcp hev prev hat m hf ih hg hres hcond R h
    obtain ⟨hh, hrest⟩ := (goodTable_cons ik v rest).mp hg
    rw [cfgInner_some_cfg ik inner0 hck, if_pos rfl] at hh
    rw [asTable_some v prev hat, guardOk_table] at hh
    rw [reduceGo] at h
    simp only [hck, hcp, hev, hat, hf] at h
    exact ih hrest hres (foldCond_cfgFree ik prev cond m hh hcond hf) R h
  · intro res cond ik v rest hck t hat e hr iht hg hres hcond R h
    have hv := asTable_some v t hat
    subst hv
    rw [reduceGo_cons_noncfg_table ev ik t rest res cond hck, hr] at h
    cases h
  · intro res cond ik v rest hck t hat m hr iht ih hg hres hcond R h
    have hv := asTable_some v t hat
    subst hv
    obtain ⟨hh, hrest⟩ := (goodTable_cons ik (.table t) rest).mp hg
    have hkf : isCfgKey ik = false := cfgInner_none_not_cfg ik hck
    rw [hkf] at hh
    simp only [Bool.false_eq_true, if_false] at hh
    rw [goodVal_table] at hh
    have hm : cfgFreeTable m = true := iht hh m hr
    rw [reduceGo_cons_noncfg_table ev ik t rest res cond hck, hr] at h
    refine ih hrest (cfgFree_tset res ik _ hres hkf ?_) hcond R h
    rw [cfgFreeVal_table]
    exact hm
  · intro res cond ik v rest hck hat ih hg hres hcond R h
    obtain ⟨hh, hrest⟩ := (goodTable_cons ik v rest).mp hg
    have hkf : isCfgKey ik = false := cfgInner_none_not_cfg ik hck
    rw [hkf] at hh
    simp only [Bool.false_eq_true, if_false] at hh
    rw [reduceGo] at h
    simp only [hck] at h
    cases v with
    | table entries => rw [asTable] at hat; cases hat
    | str s =>
      simp only [asTable] at h
      exact ih hrest (cfgFree_tset res ik _ hres hkf
        (asTable_none_cfgFree _ rfl hh)) hcond R h
    | int n =>
      simp only [asTable] at h
      exact ih hrest (cfgFree_tset res ik _ hres hkf
        (asTable_none_cfgFree _ rfl hh)) hcond R h
    | bool b =>
      simp only [asTable] at h
      exact ih hrest (cfgFree_tset res ik _ hres hkf
        (asTable_none_cfgFree _ rfl hh)) hcond R h
    | arr xs =>
      simp only [asTable] at h
      exact ih hrest (cfgFree_tset res ik _ hres hkf
        (asTable_none_cfgFree _ rfl hh)) hcond R h
  · intro t ih hg R h
    rw [reduce] at h
    exact ih hg cfgFreeTable_nil cfgFreeTable_nil R h

/-- C6 (amended): the reducer output of a non-predicate key's table is
recursively reduced, so the result contains no predicate key at any
nesting depth provided every predicate-guarded table maps non-predicate
target keys to predicate-free config tables and plain arrays are
predicate-free; a config table guarded by a true predicate is folded
verbatim, so without that proviso predicate keys can survive (see the
counterexample). -/
theorem reduce_good_cfgFree (ev : CfgOracle) (t : TTable) (r : TTable)
    (hg : goodTable t = true) (h : reduce ev t = .ok r) : cfgFreeTable r = true := by
  rw [reduce] at h
  exact reduceGo_cfgFree ev t [] [] hg cfgFreeTable_nil cfgFreeTable_nil r h

/-- C6 counterexample: a true predicate whose config table itself
contains a predicate key is folded verbatim, so the reducer output
contains a cfg() key, contrary to the claim. -/
theorem reduce_cfg_key_counterexample :
    reduce evAllAny [("cfg(all())", .table [("tgt", .table [("cfg(all())", .table [])])])]
      = .ok [("tgt", .table [("cfg(all())", .table [])])]
    ∧ cfgFreeTable [("tgt", .table [("cfg(all())", .table [])])] = false := by
  constructor
  · have h1 : cfgInner "cfg(all())" = some "all())" := by decide
    have h2 : closeParen "all())" = some "all()" := by decide
    have h3 : evAllAny "all()" = .ok true := by simp [evAllAny]
    rw [reduce]
    simp [reduceGo, foldCond, asTable, h1, h2, h3,
      merge_cons, merge_nil, tget, tset, sameKind]
  · have h5 : isCfgKey "cfg(all())" = true := by decide
    refine Bool.eq_false_iff.mpr fun hc => ?_
    obtain ⟨_, hv, _⟩ := (cfgFreeTable_cons _ _ _).mp hc
    rw [cfgFreeVal_table] at hv
    obtain ⟨h1, _, _⟩ := (cfgFreeTable_cons _ _ _).mp hv
    rw [h5] at h1
    cases h1

/-- Witness for the amended C6 at a concrete good input. -/
theorem reduce_good_cfgFree_witness :
    cfgFreeTable [("dep", .table [("x", .str "d")])] = true := by
  have h4 : cfgInner "dep" = none := by decide
  have h5 : cfgInner "x" = none := by decide
  refine reduce_good_cfgFree evAllAny [("dep", .table [("x", .str "d")])] _ ?_ ?_
  · have h6 : isCfgKey "dep" = false := by decide
    have h7 : isCfgKey "x" = false := by decide
    refine (goodTable_cons "dep" _ []).mpr ⟨?_, by rw [goodTable]⟩
    rw [h6]
    simp only [Bool.false_eq_true, if_false]
    rw [goodVal_table]
    refine (goodTable_cons "x" _ []).mpr ⟨?_, by rw [goodTable]⟩
    rw [h7]
    simp only [Bool.false_eq_true, if_false]
    rw [goodVal] <;> nofun
  · rw [reduce]
    simp [reduce, reduceGo, foldCond, asTable, h4, h5,
      merge_cons, merge_nil, tget, tset, sameKind]


/-! ## C1: bottom-up aggregation over the dependency graph -/


theorem chainName_inj (i j : Nat) : chainName i = chainName j ↔ i = j := by
  unfold chainName
  constructor
  · intro h
    have h2 := congrArg (fun s => s.data.length) h
    simpa using h2
  · intro h
    rw [h]

theorem alookup_chainFrom (n : Nat) (a b : String) :
    ∀ (cnt i j : Nat), i ≤ j → j < i + cnt →
      alookup (chainFrom n a b cnt i) (chainName j) = some (chainNode n a b j) := by
  intro cnt
  induction cnt with
  | zero =>
    intro i j h1 h2
    omega
  | succ c ih =>
    intro i j h1 h2
    rw [chainFrom, alookup]
    by_cases he : i = j
    · subst he
      rw [if_pos rfl]
    · rw [if_neg fun hc => he ((chainName_inj i j).mp hc)]
      exact ih (i + 1) j (by omega) (by omega)

theorem chainNode_children_pos (n : Nat) (a b : String) (i : Nat) (h : 1 ≤ i) :
    (chainNode n a b i).children = 1 := by
  unfold chainNode
  simp only []
  rw [if_neg (by omega)]

theorem chainNode_parents (n : Nat) (a b : String) (i : Nat) (h : i ≠ n + 1) :
    (chainNode n a b i).parents = [chainName (i + 1)] := by
  unfold chainNode
  simp only []
  rw [if_neg h]

theorem chainNode_parents_root (n : Nat) (a b : String) :
    (chainNode n a b (n + 1)).parents = [] := by
  unfold chainNode
  simp

theorem chainNode_table_mid (n : Nat) (a b : String) (i : Nat) (h0 : i ≠ 0) (h1 : i ≠ n + 1) :
    (chainNode n a b i).table = [] := by
  unfold chainNode
  simp only []
  rw [if_neg h0, if_neg h1]

theorem chainFrom_mem_children (n : Nat) (a b : String) :
    ∀ (cnt i : Nat), 1 ≤ i → ∀ p ∈ chainFrom n a b cnt i, ¬ p.2.children = 0 := by
  intro cnt
  induction cnt with
  | zero =>
    intro i h p hp
    cases hp
  | succ c ih =>
    intro i h p hp
    rw [chainFrom] at hp
    rcases List.mem_cons.mp hp with h2 | h2
    · rw [h2]
      rw [chainNode_children_pos n a b i h]
      omega
    · exact ih (i + 1) (by omega) p h2

theorem chainFrom_filter_rest (n : Nat) (a b : String) :
    ∀ (cnt i : Nat), 1 ≤ i →
      (chainFrom n a b cnt i).filter (fun kv => ¬ kv.2.children = 0) =
        chainFrom n a b cnt i := by
  intro cnt
  induction cnt with
  | zero =>
    intro i h
    rfl
  | succ c ih =>
    intro i h
    rw [chainFrom, List.filter]
    have hc : (chainNode n a b i).children = 1 := chainNode_children_pos n a b i h
    simp only [hc]
    simp
    intro a1 b1 hmem
    exact chainFrom_mem_children n a b c (i + 1) (by omega) (a1, b1) hmem

theorem chainFrom_filter_leaves (n : Nat) (a b : String) :
    ∀ (cnt i : Nat), 1 ≤ i →
      (chainFrom n a b cnt i).filter (fun kv => kv.2.children = 0) = [] := by
  intro cnt
  induction cnt with
  | zero =>
    intro i h
    rfl
  | succ c ih =>
    intro i h
    rw [chainFrom, List.filter]
    have hc : (chainNode n a b i).children = 1 := chainNode_children_pos n a b i h
    simp only [hc]
    simp
    intro a1 b1 hmem
    exact chainFrom_mem_children n a b c (i + 1) (by omega) (a1, b1) hmem

theorem merge_single_str (k a2 b2 : String) :
    merge true [(k, .str a2)] [(k, .str b2)] = .ok [(k, .str b2)] := by
  by_cases he : a2 = b2
  · subst he
    rw [merge_cons]
    simp [tget, merge_nil]
  · rw [merge_cons]
    simp [tget, tset, sameKind, he, merge_nil]

theorem merge_insert_single (k : String) (v : TValue) :
    merge false [] [(k, v)] = .ok [(k, v)] := by
  rw [merge_cons]
  simp [tget, tset, merge_nil]

theorem merge_insert_single_true (k : String) (v : TValue) :
    merge true [] [(k, v)] = .ok [(k, v)] := by
  rw [merge_cons]
  simp [tget, tset, merge_nil]



theorem chain_loop (n : Nat) (a b : String) :
    ∀ (d i fuel : Nat), i + d = n + 1 → 1 ≤ i → d + 2 ≤ fuel →
      aggLoop merge fuel (chainFrom n a b (n + 1) 1) [chainNode n a b i]
        [("value", .str a)] [] = some (.ok [("value", .str b)]) := by
  intro d
  induction d with
  | zero =>
    intro i fuel h1 h2 h3
    have hi : i = n + 1 := by omega
    subst hi
    obtain ⟨f2, rfl⟩ : ∃ f2, fuel = f2 + 1 := ⟨fuel - 1, by omega⟩
    rw [aggLoop]
    rw [chainNode_parents_root n a b]
    simp only [List.reverse_nil]
    rw [pushParents]
    have ht : (chainNode n a b (n + 1)).table = [("value", .str b)] := by
      unfold chainNode
      simp
    rw [ht]
    rw [merge_single_str "value" a b]
    simp only [if_true]
    rw [merge_insert_single "value" (.str b)]
    simp only []
    obtain ⟨f3, rfl⟩ : ∃ f3, f2 = f3 + 1 := ⟨f2 - 1, by omega⟩
    rw [aggLoop]
  | succ d ih =>
    intro i fuel h1 h2 h3
    have hi : i ≤ n := by omega
    obtain ⟨f2, rfl⟩ : ∃ f2, fuel = f2 + 1 := ⟨fuel - 1, by omega⟩
    rw [aggLoop]
    rw [chainNode_parents (n := n) a b i (by omega)]
    simp only [List.reverse_singleton]
    rw [pushParents]
    rw [alookup_chainFrom n a b (n + 1) 1 (i + 1) (by omega) (by omega)]
    simp only []
    rw [if_pos (by rw [chainNode_children_pos n a b (i + 1) (by omega)])]
    rw [pushParents]
    simp only []
    rw [chainNode_table_mid n a b i (by omega) (by omega)]
    rw [merge_nil]
    simp only []
    rw [if_neg (by simp : ¬([chainName (i + 1)] : List String) = [])]
    exact ih (i + 1) f2 (by omega) (by omega) (by omega)

theorem chain_aggregate (n : Nat) (a b : String) :
    aggregate merge (chainNodes n a b) (n + 3) = some (.ok [("value", .str b)]) := by
  unfold aggregate chainNodes
  rw [chainFrom]
  rw [List.filter, List.filter]
  rw [chainFrom_filter_rest n a b (n + 1) 1 (by omega)]
  rw [chainFrom_filter_leaves n a b (n + 1) 1 (by omega)]
  have hc0 : (chainNode n a b 0).children = 0 := by
    unfold chainNode
    simp
  simp only [hc0, decide_True, decide_not, Bool.not_true, cond_true, cond_false, List.map]
  rw [aggLoop]
  rw [chainNode_parents (n := n) a b 0 (by omega)]
  simp only [List.reverse_singleton]
  rw [pushParents]
  rw [alookup_chainFrom n a b (n + 1) 1 1 (by omega) (by omega)]
  simp only []
  rw [if_pos (by rw [chainNode_children_pos n a b 1 (by omega)])]
  rw [pushParents]
  simp only []
  have ht : (chainNode n a b 0).table = [("value", .str a)] := by
    unfold chainNode
    simp
  rw [ht]
  rw [merge_insert_single_true "value" (.str a)]
  simp only []
  rw [if_neg (by simp : ¬([chainName 1] : List String) = [])]
  exact chain_loop n a b n 1 (n + 2) (by omega) (by omega) (by omega)



/-- C1: along a dependency chain of any depth each ancestor is merged
into the path-local accumulator with overwrite=true, so the topmost
dependent's value for a key wins over the leaf's regardless of depth
(first conjunct, for every chain depth n+1 and any two values); when a
path reaches a root the accumulator is merged into the global result
with overwrite=false, so two independent roots explicitly setting the
same key to different values fail with the merge conflict (second
conjunct) while keys set on only one path are inherited without
conflict (third conjunct). -/
theorem read_metadata_agg_behavior :
    (∀ (n : Nat) (a b : String),
      aggregate merge (chainNodes n a b) (n + 3) = some (.ok [("value", .str b)]))
  ∧ (aggregate merge
      [("a", ⟨[("k", .str "x")], [], 0⟩), ("b", ⟨[("k", .str "y")], [], 0⟩)] 3
      = some (.error .incompatibleMerge))
  ∧ (aggregate merge
      [("a", ⟨[("k", .str "x")], [], 0⟩), ("b", ⟨[("k2", .str "y")], [], 0⟩)] 3
      = some (.ok [("k", .str "x"), ("k2", .str "y")])) := by
  refine ⟨chain_aggregate, ?_, ?_⟩
  · simp [aggregate, aggLoop, pushParents,
      merge_cons, merge_nil, tget, tset, sameKind]
  · simp [aggregate, aggLoop, pushParents,
      merge_cons, merge_nil, tget, tset, sameKind]

/-- Witness for C1 at a chain of depth 3. -/
theorem read_metadata_agg_behavior_witness :
    aggregate merge (chainNodes 2 "dep" "root") 5 = some (.ok [("value", .str "root")]) :=
  read_metadata_agg_behavior.1 2 "dep" "root"

end SystemDeps
